import Mathlib

/-!
Verification of the scan-consolidation, hostname, portal-state and
error-handling behaviour of `ESP_WiFiManager.cpp` (vendored library
`ESP_WiFiManager-master`).  The C++ code is shallowly embedded: the scan
snapshot delivered by the platform WiFi driver is a list of
SSID/RSSI observations, the heap-allocated `int` index array is a
`List Int` manipulated positionally, and the member functions are pure
functions over that data.
-/

/-- One access-point observation of a scan snapshot, as reported by the
platform driver (`WiFi.SSID(i)` / `WiFi.RSSI(i)`). -/
structure ScanEntry where
  ssid : String
  rssi : Int
deriving DecidableEq, Repr

/-- Model of `WiFi.SSID(i)` over the snapshot: the SSID of entry `i`, and the empty
string for an out-of-range or negative index (as the SDK returns for the
sentinel `-1`). -/
def ssidAt (nets : List ScanEntry) (i : Int) : String :=
  if i < 0 then "" else (nets.getD i.toNat ⟨"", 0⟩).ssid

/-- Model of `WiFi.RSSI(i)` over the snapshot: the RSSI of entry `i`, and `0` for an
out-of-range or negative index. -/
def rssiAt (nets : List ScanEntry) (i : Int) : Int :=
  if i < 0 then 0 else (nets.getD i.toNat ⟨"", 0⟩).rssi

/-- Read slot `k` of the index array (`indices[k]`). -/
def getI (l : List Int) (k : Nat) : Int :=
  l.getD k 0

/-- Model of `std::swap(indices[i], indices[j])`. -/
def swapI (l : List Int) (i j : Nat) : List Int :=
  (l.set i (getI l j)).set j (getI l i)

/-- Embedding of `ESP_WiFiManager::getRSSIasQuality` (ESP_WiFiManager.cpp:1548-1566):
maps an RSSI in dBm to a 0-100 quality score. -/
def getRSSIasQuality (RSSI : Int) : Int :=
  if RSSI ≤ -100 then 0
  else if RSSI ≥ -50 then 100
  else 2 * (RSSI + 100)

/-- Modelled from the spec: `RFC952_HOSTNAME_MAXLEN` is defined in the
header `ESP_WiFiManager.h`, which is not part of this repository checkout;
the spec only requires the hostname length to be bounded by it. -/
def RFC952_HOSTNAME_MAXLEN : Nat := 24

/-- Embedding of `ESP_WiFiManager::getRFC952_hostname` (ESP_WiFiManager.cpp:134-155).
The C string is a list of characters.  `len` is the clamped input length;
the loop copies the alphanumeric-or-hyphen characters of positions
`[0, len-1)`, and the final position is appended whenever
`isalnum(c) || c != '-'` holds (the exact condition of line 151). -/
def getRFC952_hostname (iHostname : List Char) : List Char :=
  let len := min RFC952_HOSTNAME_MAXLEN iHostname.length
  let body := (iHostname.take (len - 1)).filter (fun c => c.isAlphanum || c = '-')
  let lastc := iHostname.getD (len - 1) (Char.ofNat 0)
  if lastc.isAlphanum || lastc ≠ '-' then body ++ [lastc] else body

/-- One comparison/exchange step of the RSSI sort
(ESP_WiFiManager.cpp:1478-1481): `if (RSSI(indices[j]) > RSSI(indices[i]))
swap(indices[i], indices[j])`, for the key function `f`. -/
def sstep (f : Int → Int) (i : Nat) (acc : List Int) (j : Nat) : List Int :=
  if f (getI acc i) < f (getI acc j) then swapI acc i j else acc

/-- The inner `for (j = i+1; j < n; j++)` loop of the RSSI sort, fused over
an explicit list of positions `js`. -/
def innerSort (f : Int → Int) (i : Nat) (js : List Nat) (l : List Int) : List Int :=
  js.foldl (sstep f i) l

/-- One outer iteration of the RSSI sort: the inner loop at index `i`
over `j ∈ [i+1, n)`. -/
def ostep (f : Int → Int) (n : Nat) (acc : List Int) (i : Nat) : List Int :=
  innerSort f i (List.range' (i + 1) (n - (i + 1))) acc

/-- The full exchange sort of ESP_WiFiManager.cpp:1474-1483: for each
`i < n`, run the inner loop over `j ∈ [i+1, n)`. -/
def sortPass (f : Int → Int) (n : Nat) (l : List Int) : List Int :=
  (List.range n).foldl (ostep f n) l

/-- One step of the duplicate-removal inner loop
(ESP_WiFiManager.cpp:1499-1506): `if (cssid == WiFi.SSID(indices[j]))
indices[j] = -1`. -/
def dstep (nets : List ScanEntry) (cssid : String) (acc : List Int) (j : Nat) : List Int :=
  if ssidAt nets (getI acc j) = cssid then acc.set j (-1) else acc

/-- The duplicate-removal inner loop over `j ∈ [i+1, n)` with the SSID of
the current slot captured in `cssid` (ESP_WiFiManager.cpp:1498-1506). -/
def dedupInner (nets : List ScanEntry) (cssid : String) (i n : Nat) (acc : List Int) : List Int :=
  (List.range' (i + 1) (n - (i + 1))).foldl (dstep nets cssid) acc

/-- One step of the duplicate-removal outer loop
(ESP_WiFiManager.cpp:1493-1507): skip slots already `-1`, otherwise mark
every later slot holding the same SSID. -/
def dOuter (nets : List ScanEntry) (n : Nat) (acc : List Int) (i : Nat) : List Int :=
  if getI acc i = -1 then acc
  else dedupInner nets (ssidAt nets (getI acc i)) i n acc

/-- The duplicate-removal pass, guarded by `_removeDuplicateAPs`
(ESP_WiFiManager.cpp:1490). -/
def dedupPass (nets : List ScanEntry) (n : Nat) (removeDup : Bool) (l : List Int) : List Int :=
  if removeDup then (List.range n).foldl (dOuter nets n) l else l

/-- One step of the quality-filter loop (ESP_WiFiManager.cpp:1510-1522):
skip `-1` slots, otherwise mark the slot `-1` unless
`_minimumQuality == -1 || _minimumQuality < quality`. -/
def qstep (nets : List ScanEntry) (minQ : Int) (acc : List Int) (i : Nat) : List Int :=
  if getI acc i = -1 then acc
  else if minQ = -1 ∨ minQ < getRSSIasQuality (rssiAt nets (getI acc i)) then acc
  else acc.set i (-1)

/-- The quality-filter pass over all `n` slots. -/
def qualPass (nets : List ScanEntry) (minQ : Int) (n : Nat) (l : List Int) : List Int :=
  (List.range n).foldl (qstep nets minQ) l

/-- The freshly allocated index array after `indices[i] = i`
(ESP_WiFiManager.cpp:1463-1466). -/
def initIndices (n : Nat) : List Int :=
  (List.range n).map Int.ofNat

/-- The index array right after the RSSI sort step of `scanWifiNetworks`. -/
def sortedIndices (nets : List ScanEntry) (n : Nat) : List Int :=
  sortPass (rssiAt nets) n (initIndices n)

/-- The index array after the RSSI sort and the duplicate-removal steps of
`scanWifiNetworks`. -/
def dedupedIndices (nets : List ScanEntry) (n : Nat) (removeDup : Bool) : List Int :=
  dedupPass nets n removeDup (sortedIndices nets n)

/-- The three consolidation steps of `scanWifiNetworks` on a snapshot of
`n` networks: RSSI sort, duplicate removal, quality filter. -/
def consolidate (nets : List ScanEntry) (n : Nat) (minQ : Int) (removeDup : Bool) : List Int :=
  qualPass nets minQ n (dedupedIndices nets n removeDup)

/-- Result of `ESP_WiFiManager::scanWifiNetworks(int **indicesptr)`:
the returned count, and what was stored through `indicesptr` —
`none` when the pointer is never written, `some none` when `NULL` is
stored (allocation failure), `some (some l)` when a buffer holding `l`
is stored. -/
structure ScanOutcome where
  retval : Int
  written : Option (Option (List Int))
deriving DecidableEq, Repr

/-- Embedding of `ESP_WiFiManager::scanWifiNetworks` (ESP_WiFiManager.cpp:1421-1536).
`scanCount` is the value returned by `WiFi.scanNetworks()` (negative for
scan-running/scan-failed), `nets` the snapshot behind `WiFi.SSID`/`WiFi.RSSI`,
`allocOk` whether the `malloc` of the index buffer succeeds. -/
def scanWifiNetworks (scanCount : Int) (nets : List ScanEntry) (allocOk : Bool)
    (minQ : Int) (removeDup : Bool) : ScanOutcome :=
  if scanCount ≤ 0 then ⟨0, none⟩
  else if allocOk then ⟨scanCount, some (some (consolidate nets scanCount.toNat minQ removeDup))⟩
  else ⟨0, some none⟩

/-- The soft-AP start performed at the end of
`ESP_WiFiManager::setupConfigPortal` (ESP_WiFiManager.cpp:317-324). -/
inductive SoftAPCall where
  | withPassword : String → String → SoftAPCall
  | openAP : String → SoftAPCall
deriving DecidableEq, Repr

/-- The AP-password validation and soft-AP start of
`ESP_WiFiManager::setupConfigPortal` (ESP_WiFiManager.cpp:299-324): a
non-null password of length outside 8-63 is discarded
(`_apPassword = NULL`), after which `WiFi.softAP` is called with or
without a password; setup always continues to the soft-AP call. -/
def setupConfigPortal_softAP (apName : String) (apPassword : Option String) : SoftAPCall :=
  let pw : Option String :=
    match apPassword with
    | some p => if p.length < 8 ∨ 63 < p.length then none else some p
    | none => none
  match pw with
  | some p => SoftAPCall.withPassword apName p
  | none => SoftAPCall.openAP apName

/-- Modelled from the spec: `DEFAULT_PORTAL_TIMEOUT` is defined in the
header `ESP_WiFiManager.h`, which is not part of this repository checkout;
only the fact that the handlers restore this constant matters here. -/
def DEFAULT_PORTAL_TIMEOUT : Nat := 60000

/-- The member variables of `ESP_WiFiManager` that the HTTP handlers
update: the portal timeout in milliseconds, the captured credentials and
the connect flag. -/
structure WMState where
  configPortalTimeout : Nat
  ssid : String
  pass : String
  connect : Bool
deriving DecidableEq, Repr

/-- Embedding of `ESP_WiFiManager::setConfigPortalTimeout` (ESP_WiFiManager.cpp:700-703):
`_configPortalTimeout = seconds * 1000`. -/
def setConfigPortalTimeout (seconds : Nat) (s : WMState) : WMState :=
  { s with configPortalTimeout := seconds * 1000 }

/-- Member-variable effect of `ESP_WiFiManager::handleRoot`
(ESP_WiFiManager.cpp:784): `_configPortalTimeout = 0`. -/
def handleRoot_effect (s : WMState) : WMState :=
  { s with configPortalTimeout := 0 }

/-- Member-variable effect of `ESP_WiFiManager::handleWifi`
(ESP_WiFiManager.cpp:822). -/
def handleWifi_effect (s : WMState) : WMState :=
  { s with configPortalTimeout := 0 }

/-- Member-variable effect of `ESP_WiFiManager::handleInfo`
(ESP_WiFiManager.cpp:1129). -/
def handleInfo_effect (s : WMState) : WMState :=
  { s with configPortalTimeout := 0 }

/-- Member-variable effect of `ESP_WiFiManager::handleScan`
(ESP_WiFiManager.cpp:1248). -/
def handleScan_effect (s : WMState) : WMState :=
  { s with configPortalTimeout := 0 }

/-- Member-variable effect of `ESP_WiFiManager::handleWifiSave`
(ESP_WiFiManager.cpp:1004-1088): store the submitted SSID/password,
raise the connect flag, and restore `_configPortalTimeout` to
`DEFAULT_PORTAL_TIMEOUT`. -/
def handleWifiSave_effect (argS argP : String) (s : WMState) : WMState :=
  { s with ssid := argS, pass := argP, connect := true,
           configPortalTimeout := DEFAULT_PORTAL_TIMEOUT }

/-- Member-variable effect of `ESP_WiFiManager::handleServerClose`
(ESP_WiFiManager.cpp:1120). -/
def handleServerClose_effect (s : WMState) : WMState :=
  { s with configPortalTimeout := DEFAULT_PORTAL_TIMEOUT }

/-- The outer-loop invariant of the exchange sort: the first `i` slots are
already in their final place and dominate (under the key `f`) every later
slot below `n`. -/
def SortInv (f : Int → Int) (n i : Nat) (l : List Int) : Prop :=
  ∀ p q, p < i → p < q → q < n → f (getI l q) ≤ f (getI l p)

/-- Slot `p` holds the first occurrence of its SSID in the array `l0`
(read in slot order). -/
def firstOcc (nets : List ScanEntry) (l0 : List Int) (p : Nat) : Prop :=
  ∀ q, q < p → ssidAt nets (getI l0 q) ≠ ssidAt nets (getI l0 p)

/-- Slot `p` has been marked as a duplicate by one of the first `i` outer
iterations of the duplicate-removal loop: an earlier first-occurrence slot
below `i` carries the same SSID. -/
def killedBy (nets : List ScanEntry) (l0 : List Int) (i p : Nat) : Prop :=
  ∃ q, q < p ∧ q < i ∧ firstOcc nets l0 q ∧
    ssidAt nets (getI l0 q) = ssidAt nets (getI l0 p)

theorem getI_eq_getElem {l : List Int} {k : Nat} (h : k < l.length) :
    getI l k = l[k] :=
  List.getD_eq_getElem l 0 h

theorem getI_mem {l : List Int} {k : Nat} (h : k < l.length) : getI l k ∈ l := by
  rw [getI_eq_getElem h]; exact List.getElem_mem h

theorem getI_set_self {l : List Int} {k : Nat} (h : k < l.length) (v : Int) :
    getI (l.set k v) k = v := by
  have h' : k < (l.set k v).length := by simpa using h
  rw [getI_eq_getElem h']
  exact List.getElem_set_self h'

theorem getI_set_ne {l : List Int} {k m : Nat} (h : k ≠ m) (v : Int) :
    getI (l.set k v) m = getI l m := by
  simp only [getI, List.getD_eq_getElem?_getD, List.getElem?_set_ne h]

theorem getI_set_or (l : List Int) (k p : Nat) (v : Int) :
    getI (l.set k v) p = getI l p ∨ getI (l.set k v) p = v := by
  by_cases hkp : k = p
  · subst hkp
    by_cases hk : k < l.length
    · exact Or.inr (getI_set_self hk v)
    · left
      rw [List.set_eq_of_length_le (Nat.le_of_not_lt hk)]
  · exact Or.inl (getI_set_ne hkp v)

theorem length_swapI (l : List Int) (i j : Nat) : (swapI l i j).length = l.length := by
  simp [swapI]

theorem getI_swapI_ne {l : List Int} {i j k : Nat} (hi : k ≠ i) (hj : k ≠ j) :
    getI (swapI l i j) k = getI l k := by
  rw [swapI, getI_set_ne (fun h => hj h.symm), getI_set_ne (fun h => hi h.symm)]

theorem getI_swapI_right {l : List Int} {i j : Nat} (hj : j < l.length) :
    getI (swapI l i j) j = getI l i := by
  have hj' : j < (l.set i (getI l j)).length := by simpa using hj
  rw [swapI, getI_set_self hj']

theorem getI_swapI_left {l : List Int} {i j : Nat} (hij : i ≠ j) (hi : i < l.length) :
    getI (swapI l i j) i = getI l j := by
  rw [swapI, getI_set_ne (fun h => hij h.symm), getI_set_self hi]

theorem mem_of_mem_swapI {l : List Int} {i j : Nat} (hi : i < l.length)
    (hj : j < l.length) {x : Int} (hx : x ∈ swapI l i j) : x ∈ l := by
  rcases List.mem_or_eq_of_mem_set hx with hx1 | hx1
  · rcases List.mem_or_eq_of_mem_set hx1 with hx2 | hx2
    · exact hx2
    · exact hx2 ▸ getI_mem hj
  · exact hx1 ▸ getI_mem hi

theorem innerSort_nil (f : Int → Int) (i : Nat) (l : List Int) :
    innerSort f i [] l = l := rfl

theorem innerSort_cons (f : Int → Int) (i j : Nat) (js : List Nat) (l : List Int) :
    innerSort f i (j :: js) l = innerSort f i js (sstep f i l j) := rfl

theorem length_sstep (f : Int → Int) (i : Nat) (l : List Int) (j : Nat) :
    (sstep f i l j).length = l.length := by
  unfold sstep; split <;> simp [length_swapI]

theorem length_innerSort (f : Int → Int) (i : Nat) :
    ∀ (js : List Nat) (l : List Int), (innerSort f i js l).length = l.length := by
  intro js
  induction js with
  | nil => intro l; rfl
  | cons j js ih =>
      intro l
      rw [innerSort_cons, ih, length_sstep]

theorem getI_innerSort_untouched (f : Int → Int) (i : Nat) :
    ∀ (js : List Nat) (l : List Int) (k : Nat), k ≠ i → k ∉ js →
      getI (innerSort f i js l) k = getI l k := by
  intro js
  induction js with
  | nil => intro l k _ _; rfl
  | cons j js ih =>
      intro l k hki hkjs
      have hkj : k ≠ j := fun h => hkjs (h ▸ List.mem_cons_self j js)
      have hkjs' : k ∉ js := fun h => hkjs (List.mem_cons_of_mem j h)
      rw [innerSort_cons, ih _ k hki hkjs']
      unfold sstep
      split
      · exact getI_swapI_ne hki hkj
      · rfl

theorem getI_sstep_i_mono (f : Int → Int) {i : Nat} {l : List Int} {j : Nat}
    (hi : i < l.length) (hj : j ≠ i) :
    f (getI l i) ≤ f (getI (sstep f i l j) i) := by
  unfold sstep
  split
  · rename_i hlt
    rw [getI_swapI_left (fun h => hj h.symm) hi]
    exact le_of_lt hlt
  · exact le_refl _

theorem getI_innerSort_i_mono (f : Int → Int) {i : Nat} :
    ∀ (js : List Nat) (l : List Int), i < l.length → (∀ j ∈ js, j < l.length ∧ j ≠ i) →
      f (getI l i) ≤ f (getI (innerSort f i js l) i) := by
  intro js
  induction js with
  | nil => intro l _ _; exact le_refl _
  | cons j js ih =>
      intro l hi hjs
      have hj := hjs j (List.mem_cons_self j js)
      have h1 : f (getI l i) ≤ f (getI (sstep f i l j) i) := getI_sstep_i_mono f hi hj.2
      have h2 := ih (sstep f i l j) (by rw [length_sstep]; exact hi)
        (fun a ha => by rw [length_sstep]; exact hjs a (List.mem_cons_of_mem j ha))
      rw [innerSort_cons]
      exact le_trans h1 h2

theorem getI_innerSort_dominates (f : Int → Int) {i : Nat} :
    ∀ (js : List Nat) (l : List Int), i < l.length → (∀ j ∈ js, j < l.length ∧ j ≠ i) →
      ∀ j ∈ js, f (getI (innerSort f i js l) j) ≤ f (getI (innerSort f i js l) i) := by
  intro js
  induction js with
  | nil => intro l _ _ j hj; exact absurd hj (List.not_mem_nil j)
  | cons a js ih =>
      intro l hi hjs j hj
      have ha := hjs a (List.mem_cons_self a js)
      have hi1 : i < (sstep f i l a).length := by rw [length_sstep]; exact hi
      have hjs1 : ∀ b ∈ js, b < (sstep f i l a).length ∧ b ≠ i :=
        fun b hb => by rw [length_sstep]; exact hjs b (List.mem_cons_of_mem a hb)
      rw [innerSort_cons]
      rcases List.mem_cons.mp hj with hja | hjmem
      · subst hja
        by_cases hmem : j ∈ js
        · exact ih (sstep f i l j) hi1 hjs1 j hmem
        · have huntouched :
              getI (innerSort f i js (sstep f i l j)) j = getI (sstep f i l j) j :=
            getI_innerSort_untouched f i js _ j ha.2 hmem
          rw [huntouched]
          have hstep : f (getI (sstep f i l j) j) ≤ f (getI (sstep f i l j) i) := by
            unfold sstep
            split
            · rename_i hlt
              rw [getI_swapI_right ha.1, getI_swapI_left (fun h => ha.2 h.symm) hi]
              exact le_of_lt hlt
            · rename_i hlt
              exact le_of_not_lt hlt
          exact le_trans hstep (getI_innerSort_i_mono f js _ hi1 hjs1)
      · exact ih (sstep f i l a) hi1 hjs1 j hjmem

theorem getI_innerSort_origin (f : Int → Int) {i : Nat} :
    ∀ (js : List Nat) (l : List Int), i < l.length → (∀ j ∈ js, j < l.length ∧ j ≠ i) →
      ∀ k, (k = i ∨ k ∈ js) →
        ∃ m, (m = i ∨ m ∈ js) ∧ getI (innerSort f i js l) k = getI l m := by
  intro js
  induction js with
  | nil =>
      intro l _ _ k hk
      exact ⟨k, hk, rfl⟩
  | cons a js ih =>
      intro l hi hjs k hk
      have ha := hjs a (List.mem_cons_self a js)
      have hi1 : i < (sstep f i l a).length := by rw [length_sstep]; exact hi
      have hjs1 : ∀ b ∈ js, b < (sstep f i l a).length ∧ b ≠ i :=
        fun b hb => by rw [length_sstep]; exact hjs b (List.mem_cons_of_mem a hb)
      have hlift : ∀ m, (m = i ∨ m ∈ js) →
          ∃ m', (m' = i ∨ m' ∈ a :: js) ∧ getI (sstep f i l a) m = getI l m' := by
        intro m hm
        unfold sstep
        split
        · by_cases hma : m = a
          · subst hma
            refine ⟨i, Or.inl rfl, ?_⟩
            exact getI_swapI_right ha.1
          · rcases hm with hmi | hmjs
            · subst hmi
              refine ⟨a, Or.inr (List.mem_cons_self a js), ?_⟩
              exact getI_swapI_left (fun h => ha.2 h.symm) hi
            · refine ⟨m, Or.inr (List.mem_cons_of_mem a hmjs), ?_⟩
              exact getI_swapI_ne (hjs m (List.mem_cons_of_mem a hmjs)).2 hma
        · refine ⟨m, ?_, rfl⟩
          rcases hm with h | h
          · exact Or.inl h
          · exact Or.inr (List.mem_cons_of_mem a h)
      rw [innerSort_cons]
      rcases hk with hki | hkmem
      · obtain ⟨m, hm, hval⟩ := ih (sstep f i l a) hi1 hjs1 k (Or.inl hki)
        obtain ⟨m', hm', hval'⟩ := hlift m hm
        exact ⟨m', hm', by rw [hval, hval']⟩
      · rcases List.mem_cons.mp hkmem with hka | hkjs
        · subst hka
          by_cases hmem : k ∈ js
          · obtain ⟨m, hm, hval⟩ := ih (sstep f i l k) hi1 hjs1 k (Or.inr hmem)
            obtain ⟨m', hm', hval'⟩ := hlift m hm
            exact ⟨m', hm', by rw [hval, hval']⟩
          · have huntouched :
                getI (innerSort f i js (sstep f i l k)) k = getI (sstep f i l k) k :=
              getI_innerSort_untouched f i js _ k ha.2 hmem
            have hstep : ∃ m', (m' = i ∨ m' ∈ k :: js) ∧ getI (sstep f i l k) k = getI l m' := by
              unfold sstep
              split
              · exact ⟨i, Or.inl rfl, getI_swapI_right ha.1⟩
              · exact ⟨k, Or.inr (List.mem_cons_self k js), rfl⟩
            obtain ⟨m', hm', hval'⟩ := hstep
            exact ⟨m', hm', by rw [huntouched, hval']⟩
        · obtain ⟨m, hm, hval⟩ := ih (sstep f i l a) hi1 hjs1 k (Or.inr hkjs)
          obtain ⟨m', hm', hval'⟩ := hlift m hm
          exact ⟨m', hm', by rw [hval, hval']⟩

theorem mem_innerSort (f : Int → Int) {i : Nat} :
    ∀ (js : List Nat) (l : List Int), i < l.length → (∀ j ∈ js, j < l.length) →
      ∀ x ∈ innerSort f i js l, x ∈ l := by
  intro js
  induction js with
  | nil => intro l _ _ x hx; exact hx
  | cons a js ih =>
      intro l hi hjs x hx
      rw [innerSort_cons] at hx
      have hx1 : x ∈ sstep f i l a :=
        ih (sstep f i l a) (by rw [length_sstep]; exact hi)
          (fun b hb => by rw [length_sstep]; exact hjs b (List.mem_cons_of_mem a hb)) x hx
      revert hx1
      unfold sstep
      split
      · exact fun h => mem_of_mem_swapI hi (hjs a (List.mem_cons_self a js)) h
      · exact fun h => h

theorem length_ostep (f : Int → Int) (n : Nat) (l : List Int) (i : Nat) :
    (ostep f n l i).length = l.length :=
  length_innerSort f i _ l

theorem ostep_bounds {n i : Nat} {l : List Int}
    (hin : i < n) (hlen : n ≤ l.length) :
    i < l.length ∧ ∀ j ∈ List.range' (i + 1) (n - (i + 1)), j < l.length ∧ j ≠ i := by
  constructor
  · exact Nat.lt_of_lt_of_le hin hlen
  · intro j hj
    rw [List.mem_range'_1] at hj
    constructor
    · omega
    · omega

theorem SortInv_step (f : Int → Int) {n i : Nat} {l : List Int}
    (hin : i < n) (hlen : n ≤ l.length) (hinv : SortInv f n i l) :
    SortInv f n (i + 1) (ostep f n l i) := by
  obtain ⟨hi, hjs⟩ := ostep_bounds hin hlen
  have hcov : ∀ q, i < q → q < n → q ∈ List.range' (i + 1) (n - (i + 1)) := by
    intro q h1 h2
    rw [List.mem_range'_1]
    omega
  intro p q hp hpq hq
  rcases Nat.lt_succ_iff_lt_or_eq.mp hp with hpi | hpi
  · have hpne : p ≠ i := Nat.ne_of_lt hpi
    have hpnot : p ∉ List.range' (i + 1) (n - (i + 1)) := by
      intro hmem
      rw [List.mem_range'_1] at hmem
      omega
    have hpfix : getI (ostep f n l i) p = getI l p :=
      getI_innerSort_untouched f i _ l p hpne hpnot
    by_cases hqi : i ≤ q
    · have hqor : q = i ∨ q ∈ List.range' (i + 1) (n - (i + 1)) := by
        rcases Nat.eq_or_lt_of_le hqi with h | h
        · exact Or.inl h.symm
        · exact Or.inr (hcov q h hq)
      obtain ⟨m, hm, hval⟩ := getI_innerSort_origin f _ l hi hjs q hqor
      have hmlo : i ≤ m := by
        rcases hm with h | h
        · omega
        · rw [List.mem_range'_1] at h; omega
      have hmhi : m < n := by
        rcases hm with h | h
        · omega
        · rw [List.mem_range'_1] at h; omega
      have hval' : getI (ostep f n l i) q = getI l m := hval
      rw [hval', hpfix]
      exact hinv p m hpi (by omega) hmhi
    · have hqne : q ≠ i := by omega
      have hqnot : q ∉ List.range' (i + 1) (n - (i + 1)) := by
        intro hmem
        rw [List.mem_range'_1] at hmem
        omega
      have hqfix : getI (ostep f n l i) q = getI l q :=
        getI_innerSort_untouched f i _ l q hqne hqnot
      rw [hqfix, hpfix]
      exact hinv p q hpi hpq hq
  · subst hpi
    have hqmem : q ∈ List.range' (p + 1) (n - (p + 1)) := hcov q hpq hq
    exact getI_innerSort_dominates f _ l hi hjs q hqmem

theorem sortAux_inv (f : Int → Int) (n : Nat) :
    ∀ (k i : Nat) (l : List Int), i + k = n → n ≤ l.length → SortInv f n i l →
      SortInv f n n ((List.range' i k).foldl (ostep f n) l) := by
  intro k
  induction k with
  | zero =>
      intro i l hik _ hinv
      have : i = n := by omega
      subst this
      exact hinv
  | succ k ih =>
      intro i l hik hlen hinv
      have hin : i < n := by omega
      rw [List.range'_succ]
      simp only [List.foldl_cons]
      exact ih (i + 1) (ostep f n l i) (by omega)
        (by rw [length_ostep]; exact hlen)
        (SortInv_step f hin hlen hinv)

theorem length_foldl_ostep (f : Int → Int) (n : Nat) :
    ∀ (ks : List Nat) (l : List Int), (ks.foldl (ostep f n) l).length = l.length := by
  intro ks
  induction ks with
  | nil => intro l; rfl
  | cons a ks ih =>
      intro l
      simp only [List.foldl_cons]
      rw [ih, length_ostep]

theorem length_sortPass (f : Int → Int) (n : Nat) (l : List Int) :
    (sortPass f n l).length = l.length :=
  length_foldl_ostep f n _ l

theorem sortPass_sorted (f : Int → Int) {n : Nat} {l : List Int} (hlen : n ≤ l.length) :
    ∀ p q, p < q → q < n →
      f (getI (sortPass f n l) q) ≤ f (getI (sortPass f n l) p) := by
  have hinv0 : SortInv f n 0 l := by
    intro p q hp _ _
    exact absurd hp (Nat.not_lt_zero p)
  have hfin : SortInv f n n (sortPass f n l) := by
    rw [sortPass, List.range_eq_range']
    exact sortAux_inv f n n 0 l (by omega) hlen hinv0
  intro p q hpq hq
  exact hfin p q (by omega) hpq hq

theorem mem_foldl_ostep (f : Int → Int) (n : Nat) :
    ∀ (ks : List Nat) (l : List Int), n ≤ l.length → (∀ i ∈ ks, i < n) →
      ∀ x ∈ ks.foldl (ostep f n) l, x ∈ l := by
  intro ks
  induction ks with
  | nil => intro l _ _ x hx; exact hx
  | cons a ks ih =>
      intro l hlen hks x hx
      simp only [List.foldl_cons] at hx
      have ha : a < n := hks a (List.mem_cons_self a ks)
      obtain ⟨hi, hjs⟩ := ostep_bounds ha hlen
      have hx1 : x ∈ ostep f n l a := by
        refine ih (ostep f n l a) ?_ ?_ x hx
        · rw [length_ostep]; exact hlen
        · exact fun b hb => hks b (List.mem_cons_of_mem a hb)
      exact mem_innerSort f _ l hi (fun j hj => (hjs j hj).1) x hx1

theorem mem_sortPass (f : Int → Int) {n : Nat} {l : List Int} (hlen : n ≤ l.length) :
    ∀ x ∈ sortPass f n l, x ∈ l := by
  rw [sortPass]
  exact mem_foldl_ostep f n _ l hlen (fun i hi => List.mem_range.mp hi)

theorem length_dstep (nets : List ScanEntry) (cssid : String) (l : List Int) (j : Nat) :
    (dstep nets cssid l j).length = l.length := by
  unfold dstep; split <;> simp

theorem getI_dstep_ne (nets : List ScanEntry) (cssid : String) (l : List Int) {j p : Nat}
    (h : p ≠ j) : getI (dstep nets cssid l j) p = getI l p := by
  unfold dstep
  split
  · exact getI_set_ne (fun hh => h hh.symm) _
  · rfl

theorem getI_dedupInner_range (nets : List ScanEntry) (cssid : String) :
    ∀ (k a : Nat) (l : List Int) (p : Nat),
      getI ((List.range' a k).foldl (dstep nets cssid) l) p =
        if a ≤ p ∧ p < a + k ∧ p < l.length ∧ ssidAt nets (getI l p) = cssid
        then -1 else getI l p := by
  intro k
  induction k with
  | zero =>
      intro a l p
      have hC : ¬(a ≤ p ∧ p < a + 0 ∧ p < l.length ∧ ssidAt nets (getI l p) = cssid) := by
        rintro ⟨h1, h2, -, -⟩
        omega
      rw [if_neg hC]
      rfl
  | succ k ih =>
      intro a l p
      rw [List.range'_succ]
      simp only [List.foldl_cons]
      rw [ih (a + 1) (dstep nets cssid l a) p]
      have hlen : (dstep nets cssid l a).length = l.length := length_dstep nets cssid l a
      by_cases hpa : p = a
      · subst hpa
        have hC1 : ¬(p + 1 ≤ p ∧ p < p + 1 + k ∧ p < (dstep nets cssid l p).length ∧
            ssidAt nets (getI (dstep nets cssid l p) p) = cssid) := by
          rintro ⟨h1, -, -, -⟩
          omega
        rw [if_neg hC1]
        unfold dstep
        by_cases hss : ssidAt nets (getI l p) = cssid
        · rw [if_pos hss]
          by_cases hplen : p < l.length
          · rw [getI_set_self hplen]
            rw [if_pos ⟨Nat.le_refl p, by omega, hplen, hss⟩]
          · rw [List.set_eq_of_length_le (Nat.le_of_not_lt hplen)]
            have hC2 : ¬(p ≤ p ∧ p < p + (k + 1) ∧ p < l.length ∧
                ssidAt nets (getI l p) = cssid) := by
              rintro ⟨-, -, h3, -⟩
              exact hplen h3
            rw [if_neg hC2]
        · rw [if_neg hss]
          have hC2 : ¬(p ≤ p ∧ p < p + (k + 1) ∧ p < l.length ∧
              ssidAt nets (getI l p) = cssid) := by
            rintro ⟨-, -, -, h4⟩
            exact hss h4
          rw [if_neg hC2]
      · have hfix : getI (dstep nets cssid l a) p = getI l p := getI_dstep_ne nets cssid l hpa
        rw [hfix, hlen]
        have hiff : (a + 1 ≤ p ∧ p < a + 1 + k ∧ p < l.length ∧
              ssidAt nets (getI l p) = cssid) ↔
            (a ≤ p ∧ p < a + (k + 1) ∧ p < l.length ∧ ssidAt nets (getI l p) = cssid) := by
          constructor
          · rintro ⟨h1, h2, h3, h4⟩
            exact ⟨by omega, by omega, h3, h4⟩
          · rintro ⟨h1, h2, h3, h4⟩
            refine ⟨?_, by omega, h3, h4⟩
            rcases Nat.eq_or_lt_of_le h1 with h | h
            · exact absurd h.symm hpa
            · omega
        rw [if_congr hiff rfl rfl]

theorem getI_dedupInner (nets : List ScanEntry) (cssid : String) (i n : Nat)
    (l : List Int) (p : Nat) :
    getI (dedupInner nets cssid i n l) p =
      if i + 1 ≤ p ∧ p < i + 1 + (n - (i + 1)) ∧ p < l.length ∧
          ssidAt nets (getI l p) = cssid
      then -1 else getI l p :=
  getI_dedupInner_range nets cssid (n - (i + 1)) (i + 1) l p

theorem exists_firstOcc (nets : List ScanEntry) (l0 : List Int) :
    ∀ p, ¬ firstOcc nets l0 p →
      ∃ q, q < p ∧ firstOcc nets l0 q ∧
        ssidAt nets (getI l0 q) = ssidAt nets (getI l0 p) := by
  intro p
  induction p using Nat.strong_induction_on with
  | _ p ih =>
      intro hnf
      rw [firstOcc] at hnf
      push_neg at hnf
      obtain ⟨q, hq, hss⟩ := hnf
      by_cases hfq : firstOcc nets l0 q
      · exact ⟨q, hq, hfq, hss⟩
      · obtain ⟨r, hr, hfr, hss2⟩ := ih q hq hfq
        exact ⟨r, by omega, hfr, hss2.trans hss⟩

theorem killedBy_succ (nets : List ScanEntry) (l0 : List Int) (i p : Nat) :
    killedBy nets l0 (i + 1) p ↔
      killedBy nets l0 i p ∨
        (i < p ∧ firstOcc nets l0 i ∧
          ssidAt nets (getI l0 i) = ssidAt nets (getI l0 p)) := by
  constructor
  · rintro ⟨q, h1, h2, h3, h4⟩
    rcases Nat.lt_succ_iff_lt_or_eq.mp h2 with h | h
    · exact Or.inl ⟨q, h1, h, h3, h4⟩
    · subst h
      exact Or.inr ⟨h1, h3, h4⟩
  · rintro (⟨q, h1, h2, h3, h4⟩ | ⟨h1, h2, h3⟩)
    · exact ⟨q, h1, by omega, h3, h4⟩
    · exact ⟨i, h1, by omega, h2, h3⟩

theorem killedBy_mono (nets : List ScanEntry) (l0 : List Int) {i p : Nat}
    (h : killedBy nets l0 i p) : killedBy nets l0 (i + 1) p :=
  (killedBy_succ nets l0 i p).mpr (Or.inl h)

theorem not_killedBy_zero (nets : List ScanEntry) (l0 : List Int) (p : Nat) :
    ¬ killedBy nets l0 0 p := by
  rintro ⟨q, -, h2, -, -⟩
  omega

theorem killedBy_top_iff (nets : List ScanEntry) (l0 : List Int) {n p : Nat}
    (hp : p < n) : killedBy nets l0 n p ↔ ¬ firstOcc nets l0 p := by
  constructor
  · rintro ⟨q, h1, -, -, h4⟩ hfo
    exact hfo q h1 h4
  · intro hnf
    obtain ⟨q, hq, hfq, hss⟩ := exists_firstOcc nets l0 p hnf
    exact ⟨q, hq, by omega, hfq, hss⟩

theorem killedBy_self_not_firstOcc (nets : List ScanEntry) (l0 : List Int) {i : Nat}
    (h : killedBy nets l0 i i) : ¬ firstOcc nets l0 i := by
  obtain ⟨q, h1, -, -, h4⟩ := h
  exact fun hfo => hfo q h1 h4

theorem length_dedupInner (nets : List ScanEntry) (cssid : String) (i n : Nat) :
    ∀ (l : List Int), (dedupInner nets cssid i n l).length = l.length := by
  unfold dedupInner
  generalize List.range' (i + 1) (n - (i + 1)) = js
  induction js with
  | nil => intro l; rfl
  | cons a js ih =>
      intro l
      simp only [List.foldl_cons]
      rw [ih, length_dstep]

theorem length_dOuter (nets : List ScanEntry) (n : Nat) (l : List Int) (i : Nat) :
    (dOuter nets n l i).length = l.length := by
  unfold dOuter
  split
  · rfl
  · exact length_dedupInner nets _ i n l

theorem dOuter_inv_step (nets : List ScanEntry) {n : Nat} {l0 m : List Int}
    (hlen : n ≤ l0.length) (h0 : ∀ p, p < n → getI l0 p ≠ -1) {i : Nat} (hin : i < n)
    (hmlen : m.length = l0.length)
    (hinv : ∀ p, p < n → (killedBy nets l0 i p → getI m p = -1) ∧
      (¬ killedBy nets l0 i p → getI m p = getI l0 p)) :
    ∀ p, p < n → (killedBy nets l0 (i + 1) p → getI (dOuter nets n m i) p = -1) ∧
      (¬ killedBy nets l0 (i + 1) p → getI (dOuter nets n m i) p = getI l0 p) := by
  by_cases hki : killedBy nets l0 i i
  · have hmi : getI m i = -1 := (hinv i hin).1 hki
    have hnf : ¬ firstOcc nets l0 i := killedBy_self_not_firstOcc nets l0 hki
    have hskip : dOuter nets n m i = m := by
      unfold dOuter
      rw [if_pos hmi]
    rw [hskip]
    intro p hp
    have hsame : killedBy nets l0 (i + 1) p ↔ killedBy nets l0 i p := by
      rw [killedBy_succ]
      constructor
      · rintro (h | ⟨-, h2, -⟩)
        · exact h
        · exact absurd h2 hnf
      · exact Or.inl
    rw [hsame]
    exact hinv p hp
  · have hmi : getI m i = getI l0 i := (hinv i hin).2 hki
    have hmine : ¬ getI m i = -1 := by
      rw [hmi]
      exact h0 i hin
    have hfo : firstOcc nets l0 i := by
      by_contra hnf
      obtain ⟨q, hq, hfq, hss⟩ := exists_firstOcc nets l0 i hnf
      exact hki ⟨q, hq, hq, hfq, hss⟩
    have hrun : dOuter nets n m i = dedupInner nets (ssidAt nets (getI m i)) i n m := by
      unfold dOuter
      rw [if_neg hmine]
    rw [hrun, hmi]
    intro p hp
    have hform := getI_dedupInner nets (ssidAt nets (getI l0 i)) i n m p
    have hcap : i + 1 + (n - (i + 1)) = n := by omega
    rw [hcap, hmlen] at hform
    constructor
    · intro hk
      rcases (killedBy_succ nets l0 i p).mp hk with hk1 | ⟨hip, -, hss⟩
      · have hm1 : getI m p = -1 := (hinv p hp).1 hk1
        rw [hform]
        split
        · rfl
        · exact hm1
      · by_cases hk1 : killedBy nets l0 i p
        · have hm1 : getI m p = -1 := (hinv p hp).1 hk1
          rw [hform]
          split
          · rfl
          · exact hm1
        · have hm1 : getI m p = getI l0 p := (hinv p hp).2 hk1
          rw [hform, if_pos]
          refine ⟨by omega, by omega, by omega, ?_⟩
          rw [hm1]
          exact hss.symm
    · intro hnk
      have hnk1 : ¬ killedBy nets l0 i p :=
        fun h => hnk (killedBy_mono nets l0 h)
      have hm1 : getI m p = getI l0 p := (hinv p hp).2 hnk1
      rw [hform, if_neg]
      · exact hm1
      · rintro ⟨hc1, -, -, hc4⟩
        rw [hm1] at hc4
        exact hnk ((killedBy_succ nets l0 i p).mpr
          (Or.inr ⟨by omega, hfo, hc4.symm⟩))

theorem dedup_aux (nets : List ScanEntry) (n : Nat) (l0 : List Int)
    (hlen : n ≤ l0.length) (h0 : ∀ p, p < n → getI l0 p ≠ -1) :
    ∀ (k i : Nat) (m : List Int), i + k = n → m.length = l0.length →
      (∀ p, p < n → (killedBy nets l0 i p → getI m p = -1) ∧
        (¬ killedBy nets l0 i p → getI m p = getI l0 p)) →
      ∀ p, p < n →
        (killedBy nets l0 n p →
          getI ((List.range' i k).foldl (dOuter nets n) m) p = -1) ∧
        (¬ killedBy nets l0 n p →
          getI ((List.range' i k).foldl (dOuter nets n) m) p = getI l0 p) := by
  intro k
  induction k with
  | zero =>
      intro i m hik hmlen hinv p hp
      have : i = n := by omega
      subst this
      exact hinv p hp
  | succ k ih =>
      intro i m hik hmlen hinv p hp
      have hin : i < n := by omega
      rw [List.range'_succ]
      simp only [List.foldl_cons]
      exact ih (i + 1) (dOuter nets n m i) (by omega)
        (by rw [length_dOuter]; exact hmlen)
        (dOuter_inv_step nets hlen h0 hin hmlen hinv) p hp

theorem getI_dedupPass (nets : List ScanEntry) {n : Nat} {l0 : List Int}
    (hlen : n ≤ l0.length) (h0 : ∀ p, p < n → getI l0 p ≠ -1)
    (p : Nat) (hp : p < n) :
    (firstOcc nets l0 p → getI (dedupPass nets n true l0) p = getI l0 p) ∧
    (¬ firstOcc nets l0 p → getI (dedupPass nets n true l0) p = -1) := by
  have hinv0 : ∀ q, q < n → (killedBy nets l0 0 q → getI l0 q = -1) ∧
      (¬ killedBy nets l0 0 q → getI l0 q = getI l0 q) := by
    intro q _
    exact ⟨fun h => absurd h (not_killedBy_zero nets l0 q), fun _ => rfl⟩
  have hmain := dedup_aux nets n l0 hlen h0 n 0 l0 (by omega) rfl hinv0 p hp
  have heq : dedupPass nets n true l0 = (List.range' 0 n).foldl (dOuter nets n) l0 := by
    unfold dedupPass
    rw [if_pos rfl, List.range_eq_range']
  constructor
  · intro hfo
    rw [heq]
    exact hmain.2 (fun hk => ((killedBy_top_iff nets l0 hp).mp hk) hfo)
  · intro hnf
    rw [heq]
    exact hmain.1 ((killedBy_top_iff nets l0 hp).mpr hnf)

theorem length_dedupPass (nets : List ScanEntry) (n : Nat) (removeDup : Bool) :
    ∀ (l : List Int), (dedupPass nets n removeDup l).length = l.length := by
  unfold dedupPass
  split
  · rw [List.range_eq_range']
    generalize List.range' 0 n = ks
    induction ks with
    | nil => intro l; rfl
    | cons a ks ih =>
        intro l
        simp only [List.foldl_cons]
        rw [ih, length_dOuter]
  · intro l
    rfl

theorem length_qstep (nets : List ScanEntry) (minQ : Int) (l : List Int) (i : Nat) :
    (qstep nets minQ l i).length = l.length := by
  unfold qstep
  split
  · rfl
  · split
    · rfl
    · simp

theorem getI_qstep_ne (nets : List ScanEntry) (minQ : Int) (l : List Int) {i p : Nat}
    (h : p ≠ i) : getI (qstep nets minQ l i) p = getI l p := by
  unfold qstep
  split
  · rfl
  · split
    · rfl
    · exact getI_set_ne (fun hh => h hh.symm) _

theorem getI_qualPass_range (nets : List ScanEntry) (minQ : Int) :
    ∀ (k a : Nat) (l : List Int) (p : Nat),
      getI ((List.range' a k).foldl (qstep nets minQ) l) p =
        if a ≤ p ∧ p < a + k ∧ p < l.length ∧ getI l p ≠ -1 ∧
            ¬(minQ = -1 ∨ minQ < getRSSIasQuality (rssiAt nets (getI l p)))
        then -1 else getI l p := by
  intro k
  induction k with
  | zero =>
      intro a l p
      have hC : ¬(a ≤ p ∧ p < a + 0 ∧ p < l.length ∧ getI l p ≠ -1 ∧
          ¬(minQ = -1 ∨ minQ < getRSSIasQuality (rssiAt nets (getI l p)))) := by
        rintro ⟨h1, h2, -, -, -⟩
        omega
      rw [if_neg hC]
      rfl
  | succ k ih =>
      intro a l p
      rw [List.range'_succ]
      simp only [List.foldl_cons]
      rw [ih (a + 1) (qstep nets minQ l a) p]
      have hlen : (qstep nets minQ l a).length = l.length := length_qstep nets minQ l a
      by_cases hpa : p = a
      · subst hpa
        have hC1 : ¬(p + 1 ≤ p ∧ p < p + 1 + k ∧ p < (qstep nets minQ l p).length ∧
            getI (qstep nets minQ l p) p ≠ -1 ∧
            ¬(minQ = -1 ∨ minQ <
              getRSSIasQuality (rssiAt nets (getI (qstep nets minQ l p) p)))) := by
          rintro ⟨h1, -, -, -, -⟩
          omega
        rw [if_neg hC1]
        unfold qstep
        by_cases hm1 : getI l p = -1
        · rw [if_pos hm1]
          have hC2 : ¬(p ≤ p ∧ p < p + (k + 1) ∧ p < l.length ∧ getI l p ≠ -1 ∧
              ¬(minQ = -1 ∨ minQ < getRSSIasQuality (rssiAt nets (getI l p)))) := by
            rintro ⟨-, -, -, h4, -⟩
            exact h4 hm1
          rw [if_neg hC2, hm1]
        · rw [if_neg hm1]
          by_cases hq : minQ = -1 ∨ minQ < getRSSIasQuality (rssiAt nets (getI l p))
          · rw [if_pos hq]
            have hC2 : ¬(p ≤ p ∧ p < p + (k + 1) ∧ p < l.length ∧ getI l p ≠ -1 ∧
                ¬(minQ = -1 ∨ minQ < getRSSIasQuality (rssiAt nets (getI l p)))) := by
              rintro ⟨-, -, -, -, h5⟩
              exact h5 hq
            rw [if_neg hC2]
          · rw [if_neg hq]
            by_cases hplen : p < l.length
            · rw [getI_set_self hplen]
              rw [if_pos ⟨Nat.le_refl p, by omega, hplen, hm1, hq⟩]
            · rw [List.set_eq_of_length_le (Nat.le_of_not_lt hplen)]
              have hC2 : ¬(p ≤ p ∧ p < p + (k + 1) ∧ p < l.length ∧ getI l p ≠ -1 ∧
                  ¬(minQ = -1 ∨ minQ < getRSSIasQuality (rssiAt nets (getI l p)))) := by
                rintro ⟨-, -, h3, -, -⟩
                exact hplen h3
              rw [if_neg hC2]
      · have hfix : getI (qstep nets minQ l a) p = getI l p := getI_qstep_ne nets minQ l hpa
        rw [hfix, hlen]
        have hiff : (a + 1 ≤ p ∧ p < a + 1 + k ∧ p < l.length ∧ getI l p ≠ -1 ∧
              ¬(minQ = -1 ∨ minQ < getRSSIasQuality (rssiAt nets (getI l p)))) ↔
            (a ≤ p ∧ p < a + (k + 1) ∧ p < l.length ∧ getI l p ≠ -1 ∧
              ¬(minQ = -1 ∨ minQ < getRSSIasQuality (rssiAt nets (getI l p)))) := by
          constructor
          · rintro ⟨h1, h2, h3, h4, h5⟩
            exact ⟨by omega, by omega, h3, h4, h5⟩
          · rintro ⟨h1, h2, h3, h4, h5⟩
            refine ⟨?_, by omega, h3, h4, h5⟩
            rcases Nat.eq_or_lt_of_le h1 with h | h
            · exact absurd h.symm hpa
            · omega
        rw [if_congr hiff rfl rfl]

theorem getI_qualPass (nets : List ScanEntry) (minQ : Int) (n : Nat)
    (l : List Int) (p : Nat) :
    getI (qualPass nets minQ n l) p =
      if p < n ∧ p < l.length ∧ getI l p ≠ -1 ∧
          ¬(minQ = -1 ∨ minQ < getRSSIasQuality (rssiAt nets (getI l p)))
      then -1 else getI l p := by
  have h := getI_qualPass_range nets minQ n 0 l p
  rw [qualPass, List.range_eq_range']
  rw [h]
  refine if_congr ?_ rfl rfl
  constructor
  · rintro ⟨-, h2, h3, h4, h5⟩
    exact ⟨by omega, h3, h4, h5⟩
  · rintro ⟨h1, h2, h3, h4⟩
    exact ⟨Nat.zero_le p, by omega, h2, h3, h4⟩

theorem length_qualPass (nets : List ScanEntry) (minQ : Int) (n : Nat) :
    ∀ (l : List Int), (qualPass nets minQ n l).length = l.length := by
  unfold qualPass
  generalize List.range n = ks
  induction ks with
  | nil => intro l; rfl
  | cons a ks ih =>
      intro l
      simp only [List.foldl_cons]
      rw [ih, length_qstep]

theorem length_initIndices (n : Nat) : (initIndices n).length = n := by
  simp [initIndices]

theorem mem_initIndices {n : Nat} {x : Int} (hx : x ∈ initIndices n) :
    0 ≤ x ∧ x < (n : Int) := by
  rw [initIndices] at hx
  obtain ⟨a, ha, rfl⟩ := List.mem_map.mp hx
  have : a < n := List.mem_range.mp ha
  constructor
  · exact Int.ofNat_nonneg a
  · exact Int.ofNat_lt.mpr this

theorem length_sortedIndices (nets : List ScanEntry) (n : Nat) :
    (sortedIndices nets n).length = n := by
  rw [sortedIndices, length_sortPass, length_initIndices]

theorem mem_sortedIndices {nets : List ScanEntry} {n : Nat} {x : Int}
    (hx : x ∈ sortedIndices nets n) : 0 ≤ x ∧ x < (n : Int) := by
  rw [sortedIndices] at hx
  refine mem_initIndices (mem_sortPass (rssiAt nets) ?_ x hx)
  rw [length_initIndices]

theorem getI_sortedIndices_bounds (nets : List ScanEntry) {n p : Nat} (hp : p < n) :
    0 ≤ getI (sortedIndices nets n) p ∧ getI (sortedIndices nets n) p < (n : Int) := by
  have hplen : p < (sortedIndices nets n).length := by
    rw [length_sortedIndices]; exact hp
  rw [getI_eq_getElem hplen]
  exact mem_sortedIndices (List.getElem_mem hplen)

theorem getI_sortedIndices_ne (nets : List ScanEntry) {n p : Nat} (hp : p < n) :
    getI (sortedIndices nets n) p ≠ -1 := by
  have h := (getI_sortedIndices_bounds nets hp).1
  omega

theorem sortedIndices_sorted (nets : List ScanEntry) {n p q : Nat}
    (hpq : p < q) (hq : q < n) :
    rssiAt nets (getI (sortedIndices nets n) q) ≤
      rssiAt nets (getI (sortedIndices nets n) p) := by
  rw [sortedIndices]
  exact sortPass_sorted (rssiAt nets) (by rw [length_initIndices]) p q hpq hq

theorem length_dedupedIndices (nets : List ScanEntry) (n : Nat) (removeDup : Bool) :
    (dedupedIndices nets n removeDup).length = n := by
  rw [dedupedIndices, length_dedupPass, length_sortedIndices]

theorem getI_dedupedIndices_true (nets : List ScanEntry) {n p : Nat} (hp : p < n) :
    (firstOcc nets (sortedIndices nets n) p →
      getI (dedupedIndices nets n true) p = getI (sortedIndices nets n) p) ∧
    (¬ firstOcc nets (sortedIndices nets n) p →
      getI (dedupedIndices nets n true) p = -1) := by
  rw [dedupedIndices]
  exact getI_dedupPass nets (by rw [length_sortedIndices])
    (fun r hr => getI_sortedIndices_ne nets hr) p hp

theorem getI_dedupedIndices_cases (nets : List ScanEntry) {n : Nat} (removeDup : Bool)
    {p : Nat} (hp : p < n) :
    getI (dedupedIndices nets n removeDup) p = getI (sortedIndices nets n) p ∨
      getI (dedupedIndices nets n removeDup) p = -1 := by
  cases removeDup with
  | false => exact Or.inl rfl
  | true =>
      by_cases hfo : firstOcc nets (sortedIndices nets n) p
      · exact Or.inl ((getI_dedupedIndices_true nets hp).1 hfo)
      · exact Or.inr ((getI_dedupedIndices_true nets hp).2 hfo)

theorem getI_dedupedIndices_of_ne (nets : List ScanEntry) {n : Nat} {removeDup : Bool}
    {p : Nat} (hp : p < n) (hne : getI (dedupedIndices nets n removeDup) p ≠ -1) :
    getI (dedupedIndices nets n removeDup) p = getI (sortedIndices nets n) p := by
  rcases getI_dedupedIndices_cases nets removeDup hp with h | h
  · exact h
  · exact absurd h hne

theorem consolidate_eq_qualPass (nets : List ScanEntry) (n : Nat) (minQ : Int)
    (removeDup : Bool) :
    consolidate nets n minQ removeDup =
      qualPass nets minQ n (dedupedIndices nets n removeDup) := rfl

theorem length_consolidate (nets : List ScanEntry) (n : Nat) (minQ : Int)
    (removeDup : Bool) : (consolidate nets n minQ removeDup).length = n := by
  rw [consolidate_eq_qualPass, length_qualPass, length_dedupedIndices]

theorem getI_consolidate_of_ne (nets : List ScanEntry) {n : Nat} {minQ : Int}
    {removeDup : Bool} {p : Nat}
    (hne : getI (consolidate nets n minQ removeDup) p ≠ -1) :
    getI (consolidate nets n minQ removeDup) p =
      getI (dedupedIndices nets n removeDup) p := by
  rw [consolidate_eq_qualPass, getI_qualPass] at hne ⊢
  split
  · rename_i hC
    rw [if_pos hC] at hne
    exact absurd rfl hne
  · rfl

theorem getI_consolidate_cases (nets : List ScanEntry) {n : Nat} (minQ : Int)
    (removeDup : Bool) {p : Nat} (hp : p < n) :
    getI (consolidate nets n minQ removeDup) p = getI (sortedIndices nets n) p ∨
      getI (consolidate nets n minQ removeDup) p = -1 := by
  by_cases hne : getI (consolidate nets n minQ removeDup) p = -1
  · exact Or.inr hne
  · left
    rw [getI_consolidate_of_ne nets hne]
    refine getI_dedupedIndices_of_ne nets hp ?_
    rw [getI_consolidate_of_ne nets hne] at hne
    exact hne

theorem qual_excluded_iff (nets : List ScanEntry) {n : Nat} (minQ : Int)
    (removeDup : Bool) {p : Nat} (hp : p < n)
    (hs : getI (dedupedIndices nets n removeDup) p ≠ -1) :
    (getI (consolidate nets n minQ removeDup) p = -1 ↔
      (minQ ≠ -1 ∧
        getRSSIasQuality (rssiAt nets (getI (dedupedIndices nets n removeDup) p)) ≤ minQ)) := by
  have hD : p < (dedupedIndices nets n removeDup).length := by
    rw [length_dedupedIndices]; exact hp
  rw [consolidate_eq_qualPass, getI_qualPass]
  constructor
  · intro hval
    by_cases hC : p < n ∧ p < (dedupedIndices nets n removeDup).length ∧
        getI (dedupedIndices nets n removeDup) p ≠ -1 ∧
        ¬(minQ = -1 ∨ minQ < getRSSIasQuality
          (rssiAt nets (getI (dedupedIndices nets n removeDup) p)))
    · obtain ⟨-, -, -, h4⟩ := hC
      rw [not_or] at h4
      exact ⟨h4.1, Int.not_lt.mp h4.2⟩
    · rw [if_neg hC] at hval
      exact absurd hval hs
  · rintro ⟨h1, h2⟩
    have hC : p < n ∧ p < (dedupedIndices nets n removeDup).length ∧
        getI (dedupedIndices nets n removeDup) p ≠ -1 ∧
        ¬(minQ = -1 ∨ minQ < getRSSIasQuality
          (rssiAt nets (getI (dedupedIndices nets n removeDup) p))) := by
      refine ⟨hp, hD, hs, ?_⟩
      rw [not_or]
      exact ⟨h1, Int.not_lt.mpr h2⟩
    rw [if_pos hC]

theorem mem_consolidate (nets : List ScanEntry) (n : Nat) (minQ : Int)
    (removeDup : Bool) :
    ∀ x ∈ consolidate nets n minQ removeDup, x = -1 ∨ (0 ≤ x ∧ x < (n : Int)) := by
  intro x hx
  obtain ⟨p, hplen, hval⟩ := List.mem_iff_getElem.mp hx
  have hp : p < n := by
    rw [length_consolidate] at hplen
    exact hplen
  have hgx : getI (consolidate nets n minQ removeDup) p = x := by
    rw [getI_eq_getElem hplen, hval]
  rcases getI_consolidate_cases nets minQ removeDup hp with h | h
  · right
    rw [← hgx, h]
    exact getI_sortedIndices_bounds nets hp
  · left
    rw [← hgx, h]

/-- C1 (counterexample to the strict-inequality reading): on the snapshot
`[("A", -75)]` with `minimumQuality = 50`, the sole entry survives sorting
and deduplication, its quality `getRSSIasQuality(-75) = 50` is not
strictly below `minimumQuality`, and yet the quality-filter step marks it
with the sentinel `-1`. -/
theorem quality_filter_strict_lt_refuted :
    getI (dedupedIndices [⟨"A", -75⟩] 1 false) 0 ≠ -1 ∧
    getI (consolidate [⟨"A", -75⟩] 1 50 false) 0 = -1 ∧
    ¬(getRSSIasQuality (rssiAt [⟨"A", -75⟩]
        (getI (dedupedIndices [⟨"A", -75⟩] 1 false) 0)) < 50) := by
  decide

/-- C1 (amended): for every scan snapshot and every `minimumQuality` in
`[-1, 100]`, an entry that survives the sort and deduplication steps of
`scanWifiNetworks` is marked excluded (sentinel `-1`) by the
quality-filter step if and only if `minimumQuality ≠ -1` and its quality
score `getRSSIasQuality(RSSI)` is less than or equal to `minimumQuality`;
with `minimumQuality = -1` no entry is excluded for quality reasons. -/
theorem quality_filter_excludes_iff_le (nets : List ScanEntry) (minQ : Int)
    (removeDup : Bool) (p : Nat) (h1 : -1 ≤ minQ) (h2 : minQ ≤ 100)
    (hp : p < nets.length)
    (hs : getI (dedupedIndices nets nets.length removeDup) p ≠ -1) :
    (getI (consolidate nets nets.length minQ removeDup) p = -1 ↔
      (minQ ≠ -1 ∧
        getRSSIasQuality (rssiAt nets
          (getI (dedupedIndices nets nets.length removeDup) p)) ≤ minQ)) :=
  qual_excluded_iff nets minQ removeDup hp hs

/-- Witness for `quality_filter_excludes_iff_le` at the snapshot
`[("A", -75)]`, `minimumQuality = 50`, slot `0`. -/
theorem quality_filter_excludes_iff_le_witness :
    (((-1 : Int) ≤ 50) ∧ ((50 : Int) ≤ 100) ∧ 0 < 1 ∧
      getI (dedupedIndices [⟨"A", -75⟩] 1 false) 0 ≠ -1) ∧
    (getI (consolidate [⟨"A", -75⟩] 1 50 false) 0 = -1 ↔
      ((50 : Int) ≠ -1 ∧
        getRSSIasQuality (rssiAt [⟨"A", -75⟩]
          (getI (dedupedIndices [⟨"A", -75⟩] 1 false) 0)) ≤ 50)) :=
  ⟨⟨by decide, by decide, by decide, by decide⟩,
    quality_filter_excludes_iff_le [⟨"A", -75⟩] 50 false 0
      (by decide) (by decide) (by decide) (by decide)⟩

/-- C2 (evaluation at failing inputs): `getRFC952_hostname` does not
produce RFC-952-clean names.  On `"a--"` it returns `"a-"`, which ends in
a hyphen although the code's own comment promises "no '-' as last char";
on `"ab."` it keeps the non-alphanumeric final `'.'` (the condition
`isalnum(c) || c != '-'` of line 151 accepts every character but `'-'`);
on `"-ab"` it keeps a leading hyphen. -/
theorem getRFC952_hostname_violations :
    getRFC952_hostname ['a', '-', '-'] = ['a', '-'] ∧
    getRFC952_hostname ['a', 'b', '.'] = ['a', 'b', '.'] ∧
    getRFC952_hostname ['-', 'a', 'b'] = ['-', 'a', 'b'] := by
  decide

/-- C3: after `scanWifiNetworks` completes on any scan snapshot, reading
the index array in slot order, the surviving (non-sentinel) entries have
monotonically non-increasing RSSI. -/
theorem consolidate_survivors_rssi_sorted (nets : List ScanEntry) (minQ : Int)
    (removeDup : Bool) (p q : Nat) (hpq : p < q) (hq : q < nets.length)
    (hp1 : getI (consolidate nets nets.length minQ removeDup) p ≠ -1)
    (hq1 : getI (consolidate nets nets.length minQ removeDup) q ≠ -1) :
    rssiAt nets (getI (consolidate nets nets.length minQ removeDup) q) ≤
      rssiAt nets (getI (consolidate nets nets.length minQ removeDup) p) := by
  have hp : p < nets.length := Nat.lt_trans hpq hq
  have hp2 : getI (dedupedIndices nets nets.length removeDup) p ≠ -1 := by
    rw [← getI_consolidate_of_ne nets hp1]
    exact hp1
  have hq2 : getI (dedupedIndices nets nets.length removeDup) q ≠ -1 := by
    rw [← getI_consolidate_of_ne nets hq1]
    exact hq1
  rw [getI_consolidate_of_ne nets hp1, getI_consolidate_of_ne nets hq1,
    getI_dedupedIndices_of_ne nets hp hp2, getI_dedupedIndices_of_ne nets hq hq2]
  exact sortedIndices_sorted nets hpq hq

/-- Witness for `consolidate_survivors_rssi_sorted` on the snapshot
`[("A", -40), ("B", -90)]` with no filtering: slots `0` and `1` survive
and `-90 ≤ -40`. -/
theorem consolidate_survivors_rssi_sorted_witness :
    ((0 : Nat) < 1 ∧ 1 < 2 ∧
      getI (consolidate [⟨"A", -40⟩, ⟨"B", -90⟩] 2 (-1) true) 0 ≠ -1 ∧
      getI (consolidate [⟨"A", -40⟩, ⟨"B", -90⟩] 2 (-1) true) 1 ≠ -1) ∧
    rssiAt [⟨"A", -40⟩, ⟨"B", -90⟩]
        (getI (consolidate [⟨"A", -40⟩, ⟨"B", -90⟩] 2 (-1) true) 1) ≤
      rssiAt [⟨"A", -40⟩, ⟨"B", -90⟩]
        (getI (consolidate [⟨"A", -40⟩, ⟨"B", -90⟩] 2 (-1) true) 0) :=
  ⟨⟨by decide, by decide, by decide, by decide⟩,
    consolidate_survivors_rssi_sorted [⟨"A", -40⟩, ⟨"B", -90⟩] (-1) true 0 1
      (by decide) (by decide) (by decide) (by decide)⟩

/-- C4: with duplicate removal enabled, after the deduplication step no
two surviving slots share an SSID; a slot survives exactly when it is the
first occurrence of its SSID in the RSSI-sorted order (so the strongest
occurrence wins), and surviving slots keep their sorted index value; on
the snapshot `[("A",-40), ("B",-90), ("A",-60)]` with no quality
filtering, the slot holding the second "A" is marked `-1` and the first
"A" and "B" are kept. -/
theorem dedup_keeps_strongest (nets : List ScanEntry) :
    (∀ p q, p < q → q < nets.length →
      getI (dedupedIndices nets nets.length true) p ≠ -1 →
      getI (dedupedIndices nets nets.length true) q ≠ -1 →
      ssidAt nets (getI (dedupedIndices nets nets.length true) p) ≠
        ssidAt nets (getI (dedupedIndices nets nets.length true) q)) ∧
    (∀ p, p < nets.length →
      (getI (dedupedIndices nets nets.length true) p ≠ -1 ↔
        firstOcc nets (sortedIndices nets nets.length) p)) ∧
    (∀ p, p < nets.length → getI (dedupedIndices nets nets.length true) p ≠ -1 →
      getI (dedupedIndices nets nets.length true) p =
        getI (sortedIndices nets nets.length) p) ∧
    consolidate [⟨"A", -40⟩, ⟨"B", -90⟩, ⟨"A", -60⟩] 3 (-1) true = [0, -1, 1] := by
  have hiff : ∀ p, p < nets.length →
      (getI (dedupedIndices nets nets.length true) p ≠ -1 ↔
        firstOcc nets (sortedIndices nets nets.length) p) := by
    intro p hp
    constructor
    · intro hne
      by_contra hfo
      exact hne ((getI_dedupedIndices_true nets hp).2 hfo)
    · intro hfo
      rw [(getI_dedupedIndices_true nets hp).1 hfo]
      exact getI_sortedIndices_ne nets hp
  refine ⟨?_, hiff, ?_, by decide⟩
  · intro p q hpq hq hpne hqne
    have hp : p < nets.length := Nat.lt_trans hpq hq
    rw [getI_dedupedIndices_of_ne nets hp hpne, getI_dedupedIndices_of_ne nets hq hqne]
    exact ((hiff q hq).mp hqne) p hpq
  · intro p hp hne
    exact getI_dedupedIndices_of_ne nets hp hne

/-- Witness for `dedup_keeps_strongest` on
`[("A",-40), ("B",-90), ("A",-60)]`: the surviving slots `0` and `2`
carry distinct SSIDs. -/
theorem dedup_keeps_strongest_witness :
    ((0 : Nat) < 2 ∧ 2 < 3 ∧
      getI (dedupedIndices [⟨"A", -40⟩, ⟨"B", -90⟩, ⟨"A", -60⟩] 3 true) 0 ≠ -1 ∧
      getI (dedupedIndices [⟨"A", -40⟩, ⟨"B", -90⟩, ⟨"A", -60⟩] 3 true) 2 ≠ -1) ∧
    ssidAt [⟨"A", -40⟩, ⟨"B", -90⟩, ⟨"A", -60⟩]
        (getI (dedupedIndices [⟨"A", -40⟩, ⟨"B", -90⟩, ⟨"A", -60⟩] 3 true) 0) ≠
      ssidAt [⟨"A", -40⟩, ⟨"B", -90⟩, ⟨"A", -60⟩]
        (getI (dedupedIndices [⟨"A", -40⟩, ⟨"B", -90⟩, ⟨"A", -60⟩] 3 true) 2) :=
  ⟨⟨by decide, by decide, by decide, by decide⟩,
    (dedup_keeps_strongest [⟨"A", -40⟩, ⟨"B", -90⟩, ⟨"A", -60⟩]).1 0 2
      (by decide) (by decide) (by decide) (by decide)⟩

/-- C5: `getRSSIasQuality` maps RSSI to a quality score exactly as
specified: `RSSI ≤ -100` gives `0`, `RSSI ≥ -50` gives `100`, otherwise
`2 * (RSSI + 100)`; in particular `-100 ↦ 0`, `-50 ↦ 100`, `-75 ↦ 50`. -/
theorem getRSSIasQuality_formula (r : Int) :
    (r ≤ -100 → getRSSIasQuality r = 0) ∧
    (-50 ≤ r → getRSSIasQuality r = 100) ∧
    (-100 < r → r < -50 → getRSSIasQuality r = 2 * (r + 100)) ∧
    getRSSIasQuality (-100) = 0 ∧ getRSSIasQuality (-50) = 100 ∧
    getRSSIasQuality (-75) = 50 := by
  refine ⟨?_, ?_, ?_, by decide, by decide, by decide⟩
  · intro h
    unfold getRSSIasQuality
    rw [if_pos h]
  · intro h
    unfold getRSSIasQuality
    rw [if_neg (by omega), if_pos (by omega)]
  · intro h1 h2
    unfold getRSSIasQuality
    rw [if_neg (by omega), if_neg (by omega)]

/-- Witness for `getRSSIasQuality_formula` at `-120`. -/
theorem getRSSIasQuality_formula_witness :
    ((-120 : Int) ≤ -100) ∧ getRSSIasQuality (-120) = 0 :=
  ⟨by decide, (getRSSIasQuality_formula (-120)).1 (by decide)⟩

/-- C6: `scanWifiNetworks` reports zero networks whenever the platform
scan count is zero or negative, without ever reaching the allocation (the
`n <= 0` early return precedes the `malloc`, so a negative count is never
used as an allocation size), and on allocation failure it stores `NULL`
through `indicesptr` and returns `0` instead of using a null buffer. -/
theorem scanWifiNetworks_clamps_and_alloc (scanCount : Int) (nets : List ScanEntry)
    (minQ : Int) (removeDup : Bool) :
    (scanCount ≤ 0 → ∀ allocOk,
      scanWifiNetworks scanCount nets allocOk minQ removeDup = ⟨0, none⟩) ∧
    (0 < scanCount →
      scanWifiNetworks scanCount nets false minQ removeDup = ⟨0, some none⟩) := by
  constructor
  · intro h allocOk
    unfold scanWifiNetworks
    rw [if_pos h]
  · intro h
    unfold scanWifiNetworks
    rw [if_neg (by omega)]
    rfl

/-- Witness for `scanWifiNetworks_clamps_and_alloc` at the platform code
`WIFI_SCAN_FAILED = -2` and at a failing allocation with one network. -/
theorem scanWifiNetworks_clamps_and_alloc_witness :
    ((-2 : Int) ≤ 0 ∧
      scanWifiNetworks (-2) [] true (-1) true = ⟨0, none⟩) ∧
    ((0 : Int) < 1 ∧
      scanWifiNetworks 1 [⟨"A", -40⟩] false (-1) true = ⟨0, some none⟩) :=
  ⟨⟨by decide, (scanWifiNetworks_clamps_and_alloc (-2) [] (-1) true).1 (by decide) true⟩,
    ⟨by decide, (scanWifiNetworks_clamps_and_alloc 1 [⟨"A", -40⟩] (-1) true).2 (by decide)⟩⟩

/-- C7: on a snapshot with `n > 0` networks (and a successful
allocation), `scanWifiNetworks` returns `n` and stores an index array of
exactly `n` slots, each holding either an original scan index in
`[0, n)` or the sentinel `-1`; for a non-positive count it returns `0`
with no array. -/
theorem scanWifiNetworks_full_index_array (nets : List ScanEntry) (minQ : Int)
    (removeDup : Bool) (scanCount : Int) (hc : scanCount = (nets.length : Int))
    (hpos : 0 < nets.length) :
    scanWifiNetworks scanCount nets true minQ removeDup =
      ⟨scanCount, some (some (consolidate nets nets.length minQ removeDup))⟩ ∧
    (consolidate nets nets.length minQ removeDup).length = nets.length ∧
    (∀ x ∈ consolidate nets nets.length minQ removeDup,
      x = -1 ∨ (0 ≤ x ∧ x < (nets.length : Int))) ∧
    (∀ c : Int, c ≤ 0 → scanWifiNetworks c nets true minQ removeDup = ⟨0, none⟩) := by
  refine ⟨?_, length_consolidate nets nets.length minQ removeDup,
    mem_consolidate nets nets.length minQ removeDup, ?_⟩
  · subst hc
    unfold scanWifiNetworks
    rw [if_neg (by omega)]
    simp
  · intro c hcle
    unfold scanWifiNetworks
    rw [if_pos hcle]

/-- Witness for `scanWifiNetworks_full_index_array` on a one-network
snapshot. -/
theorem scanWifiNetworks_full_index_array_witness :
    ((1 : Int) = ((1 : Nat) : Int) ∧ 0 < 1) ∧
    scanWifiNetworks 1 [⟨"A", -40⟩] true (-1) true =
      ⟨1, some (some (consolidate [⟨"A", -40⟩] 1 (-1) true))⟩ :=
  ⟨⟨by decide, by decide⟩,
    (scanWifiNetworks_full_index_array [⟨"A", -40⟩] (-1) true 1
      (by decide) (by decide)).1⟩

/-- C8: in `setupConfigPortal`, a non-null AP password whose length lies
outside 8-63 characters is discarded, so the soft-AP is started without a
password (`WiFi.softAP(_apName)`), and portal setup continues. -/
theorem apPassword_invalid_ignored (apName p : String)
    (h : p.length < 8 ∨ 63 < p.length) :
    setupConfigPortal_softAP apName (some p) = SoftAPCall.openAP apName := by
  show (match (if p.length < 8 ∨ 63 < p.length then none else some p : Option String) with
    | some q => SoftAPCall.withPassword apName q
    | none => SoftAPCall.openAP apName) = SoftAPCall.openAP apName
  rw [if_pos h]

/-- Witness for `apPassword_invalid_ignored` with the five-character
password `"short"`. -/
theorem apPassword_invalid_ignored_witness :
    ("short".length < 8 ∨ 63 < "short".length) ∧
    setupConfigPortal_softAP "MyAP" (some "short") = SoftAPCall.openAP "MyAP" :=
  ⟨by decide, apPassword_invalid_ignored "MyAP" "short" (by decide)⟩

/-- C9: when the platform scan count is non-positive, `scanWifiNetworks`
returns without writing through `indicesptr` at all; the pointer is
assigned exactly on the positive-count path — the fresh buffer on
success, `NULL` on allocation failure. -/
theorem scanWifiNetworks_pointer_writes (scanCount : Int) (nets : List ScanEntry)
    (allocOk : Bool) (minQ : Int) (removeDup : Bool) :
    ((scanWifiNetworks scanCount nets allocOk minQ removeDup).written = none ↔
      scanCount ≤ 0) ∧
    (0 < scanCount →
      (scanWifiNetworks scanCount nets allocOk minQ removeDup).written =
        some (if allocOk then some (consolidate nets scanCount.toNat minQ removeDup)
          else none)) := by
  unfold scanWifiNetworks
  by_cases h : scanCount ≤ 0
  · rw [if_pos h]
    refine ⟨⟨fun _ => h, fun _ => rfl⟩, ?_⟩
    intro hpos
    omega
  · rw [if_neg h]
    cases allocOk with
    | false =>
        constructor
        · constructor
          · intro hf
            simp at hf
          · intro hle
            exact absurd hle h
        · intro _
          rfl
    | true =>
        constructor
        · constructor
          · intro hf
            simp at hf
          · intro hle
            exact absurd hle h
        · intro _
          rfl

/-- Witness for `scanWifiNetworks_pointer_writes` with one network and a
successful allocation. -/
theorem scanWifiNetworks_pointer_writes_witness :
    ((0 : Int) < 1) ∧
    (scanWifiNetworks 1 [⟨"A", -40⟩] true (-1) true).written =
      some (if true then some (consolidate [⟨"A", -40⟩] (1 : Int).toNat (-1) true)
        else none) :=
  ⟨by decide,
    (scanWifiNetworks_pointer_writes 1 [⟨"A", -40⟩] true (-1) true).2 (by decide)⟩

/-- C10: every invocation of `handleRoot`, `handleWifi`, `handleInfo` or
`handleScan` sets `_configPortalTimeout` to `0`, and every invocation of
`handleWifiSave` or `handleServerClose` sets it to
`DEFAULT_PORTAL_TIMEOUT`, in each case overriding whatever value
`setConfigPortalTimeout` had configured. -/
theorem portal_handlers_set_timeout (s : WMState) (secs : Nat) (argS argP : String) :
    (handleRoot_effect (setConfigPortalTimeout secs s)).configPortalTimeout = 0 ∧
    (handleWifi_effect (setConfigPortalTimeout secs s)).configPortalTimeout = 0 ∧
    (handleInfo_effect (setConfigPortalTimeout secs s)).configPortalTimeout = 0 ∧
    (handleScan_effect (setConfigPortalTimeout secs s)).configPortalTimeout = 0 ∧
    (handleWifiSave_effect argS argP
        (setConfigPortalTimeout secs s)).configPortalTimeout = DEFAULT_PORTAL_TIMEOUT ∧
    (handleServerClose_effect
        (setConfigPortalTimeout secs s)).configPortalTimeout = DEFAULT_PORTAL_TIMEOUT :=
  ⟨rfl, rfl, rfl, rfl, rfl, rfl⟩
